import Mathlib

/-!
Shallow embedding of the `adm` repository's weighted-graph engine:
the binary min-heap (`src/containers/priority_queue/heap.rs`), the
union-find structure (`src/containers/sets/union_find.rs`) and the
weighted graph with Prim's, Kruskal's and Dijkstra's algorithms
(`src/graphs/weighted.rs`).

Modelling conventions:
* Rust `i32` values are represented as `Int`; every arithmetic operation
  that can overflow in the source applies `wrap32` (two's-complement
  wrap-around, i.e. release-mode Rust semantics).
* Rust `usize` indices are `Nat`.
* A Rust `assert!` / out-of-bounds vector index is modelled as
  `Except.error` with the panic message; code that cannot fault stays
  a total function.
* `while` loops are modelled by structural recursion on an explicit
  fuel argument; the top-level entry points pass a fuel value that the
  loop can never exhaust (each iteration strictly shrinks a natural
  measure bounded by the fuel).
* The owned linked adjacency chain `Option<Box<WeightedEdge>>` is a
  `List (Int × Nat)` of `(weight, points_to)` records in chain order.
-/

namespace Adm

/-- Two's-complement wrap of an unbounded integer to the `i32` range,
the release-mode result of Rust `i32` arithmetic. -/
def wrap32 (x : Int) : Int := (x + 2 ^ 31) % 2 ^ 32 - 2 ^ 31

/-- `i32::MAX`, the sentinel "infinite" distance used by the graph
algorithms. -/
def i32Max : Int := 2147483647

/-! ## Binary min-heap (`heap.rs`)

`Heap<T>` is a `Vec<T>` with `T: PartialOrd + Copy`.  The two
instantiations used in the repository (plain integers, and `EdgePair`
compared by weight) are captured by an explicit comparison record
mirroring the `PartialOrd` methods the heap calls (`>` in `bubble`,
`<=` in `heapify`). -/

/-- The comparison operations the heap invokes on its element type:
`gt` models Rust `>` and `le` models Rust `<=`. -/
structure HOrd (α : Type) where
  gt : α → α → Bool
  le : α → α → Bool

/-- The `PartialOrd` of `i32`: the usual integer order. -/
def intOrd : HOrd Int := ⟨fun a b => decide (a > b), fun a b => decide (a ≤ b)⟩

/-- `Heap::bubble` (lines 62-72): starting from `idx`, repeatedly swap
the element with its parent when the parent is greater, walking to the
root.  The source loop exits when `parent` returns `None`, i.e. at
index 0; the private `parent` method's assertion `idx < len` holds at
every call site (`insert` passes `len-1` and the walk only decreases
the index).  Fuel: the index strictly decreases, so `idx + 1` steps
suffice. -/
def bubbleGo [Inhabited α] (ho : HOrd α) : List α → Nat → Nat → List α
  | l, _, 0 => l
  | l, cur, fuel + 1 =>
    if cur = 0 then l
    else if ho.gt (l.getD ((cur - 1) / 2) default) (l.getD cur default) then
      bubbleGo ho
        ((l.set ((cur - 1) / 2) (l.getD cur default)).set cur
          (l.getD ((cur - 1) / 2) default)) ((cur - 1) / 2) fuel
    else bubbleGo ho l ((cur - 1) / 2) fuel

/-- `Heap::insert` (lines 30-33): push the value, then bubble it up
from the last index. -/
def hpInsert [Inhabited α] (ho : HOrd α) (l : List α) (v : α) : List α :=
  bubbleGo ho (l ++ [v]) ((l ++ [v]).length - 1) (l ++ [v]).length

/-- The loop of `Heap::heapify` (lines 79-91): bubble a hole down from
the root, promoting the smaller child, until the hole has no child
(loop guard fails) or the only child is the final element (the `break`
arm).  Returns the rearranged list together with the final hole index.
The child index strictly increases, so `l.length` iterations suffice. -/
def heapifyGo [Inhabited α] (ho : HOrd α) : List α → Nat → Nat → List α × Nat
  | l, cur, 0 => (l, cur)
  | l, cur, fuel + 1 =>
    if cur * 2 + 1 ≥ l.length then (l, cur)
    else if cur * 2 + 1 = l.length - 1 then
      (l.set cur (l.getD (cur * 2 + 1) default), cur)
    else if ho.le (l.getD (cur * 2 + 1) default) (l.getD (cur * 2 + 1 + 1) default) then
      heapifyGo ho (l.set cur (l.getD (cur * 2 + 1) default)) (cur * 2 + 1) fuel
    else
      heapifyGo ho (l.set cur (l.getD (cur * 2 + 1 + 1) default)) (cur * 2 + 1 + 1) fuel

/-- `Heap::heapify` (lines 78-94): run the hole-bubbling loop, write
the final element into the last hole, then shrink the vector by one.
Only called with a non-empty list (`pop` checks emptiness first). -/
def heapify [Inhabited α] (ho : HOrd α) (l : List α) : List α :=
  match heapifyGo ho l 0 l.length with
  | (l', cur) => (l'.set cur (l'.getD (l'.length - 1) default)).dropLast

/-- `Heap::pop` (lines 36-44): return the root and re-establish the
heap via `heapify`; `None` on an empty heap. -/
def hpPop [Inhabited α] (ho : HOrd α) (l : List α) : Option α × List α :=
  if l.length = 0 then (none, l)
  else (some (l.getD 0 default), heapify ho l)

/-- `Heap::peek` (lines 46-52). -/
def hpPeek [Inhabited α] (l : List α) : Option α :=
  if l.length = 0 then none else some (l.getD 0 default)

/-- Pop every element of the heap in order, collecting the returned
values; `fuel` bounds the number of pops (each pop shrinks the heap). -/
def popAll [Inhabited α] (ho : HOrd α) : List α → Nat → List α
  | _, 0 => []
  | l, fuel + 1 =>
    match hpPop ho l with
    | (none, _) => []
    | (some v, l') => v :: popAll ho l' fuel

/-- Insert a list of values one by one into a heap. -/
def hpInsertAll [Inhabited α] (ho : HOrd α) (l : List α) (vs : List α) : List α :=
  vs.foldl (hpInsert ho) l

/-- The spec's min-heap property on the stored sequence: every element
is `≤` its children at indices `2i+1` and `2i+2` when those exist. -/
def isMinHeapB (l : List Int) : Bool :=
  (List.range l.length).all fun i =>
    (decide (2 * i + 1 ≥ l.length) || decide (l.getD i 0 ≤ l.getD (2 * i + 1) 0)) &&
    (decide (2 * i + 2 ≥ l.length) || decide (l.getD i 0 ≤ l.getD (2 * i + 2) 0))

/-! ## Union-find (`union_find.rs`) -/

/-- `UnionFind` (lines 3-7): parent forest, per-root set size, live set
count.  `nsets` is bookkeeping only; Rust would wrap a `usize`
underflow in release mode, here truncated `Nat` subtraction is used
(no verified operation reads `nsets`). -/
structure UnionFind where
  parent : List Nat
  size : List Nat
  nsets : Nat
  deriving Repr, DecidableEq

/-- `UnionFind::new` (lines 10-15): `n` singleton sets. -/
def UnionFind.new (n : Nat) : UnionFind :=
  ⟨List.range n, List.replicate n 1, n⟩

/-- The root walk of `UnionFind::find` (line 20): follow parent links
until a fixpoint.  Fuel: on every structure the verified claims reach,
the walk meets a root in fewer than `parent.length` steps; once at a
root the function returns it regardless of remaining fuel. -/
def findGo (p : List Nat) : Nat → Nat → Nat
  | x, 0 => x
  | x, fuel + 1 => if x = p.getD x 0 then x else findGo p (p.getD x 0) fuel

/-- `UnionFind::find` (lines 17-22): asserts the index is in range,
then walks to the root. -/
def UnionFind.find (uf : UnionFind) (idx : Nat) : Except String Nat :=
  if idx < uf.parent.length then .ok (findGo uf.parent idx uf.parent.length)
  else .error "idx: out of index"

/-- `UnionFind.size_` models `UnionFind::size` (lines 24-27): asserts
the index is in range, then returns the size slot of the root.
(Named with a trailing underscore to avoid clashing with the `size`
field.) -/
def UnionFind.size_ (uf : UnionFind) (idx : Nat) : Except String Nat :=
  if idx < uf.parent.length then
    .ok (uf.size.getD (findGo uf.parent idx uf.parent.length) 0)
  else .error "idx: out of index"

/-- `UnionFind::union` (lines 29-42): assert both indices in range;
no-op when `x == y`; otherwise find both roots, attach the smaller
set's root under the larger's (ties attach `y`'s root under `x`'s),
add the sizes, decrement `nsets`.  Note the no-op check compares the
*arguments*, not the roots: a repeated union of two distinct elements
of the same set re-runs the else branch. -/
def UnionFind.union (uf : UnionFind) (x y : Nat) : Except String UnionFind :=
  if x < uf.parent.length ∧ y < uf.parent.length then
    if x = y then .ok uf
    else if uf.size.getD (findGo uf.parent x uf.parent.length) 0 <
        uf.size.getD (findGo uf.parent y uf.parent.length) 0 then
      .ok ⟨uf.parent.set (findGo uf.parent x uf.parent.length)
             (findGo uf.parent y uf.parent.length),
           uf.size.set (findGo uf.parent y uf.parent.length)
             (uf.size.getD (findGo uf.parent y uf.parent.length) 0 +
              uf.size.getD (findGo uf.parent x uf.parent.length) 0),
           uf.nsets - 1⟩
    else
      .ok ⟨uf.parent.set (findGo uf.parent y uf.parent.length)
             (findGo uf.parent x uf.parent.length),
           uf.size.set (findGo uf.parent x uf.parent.length)
             (uf.size.getD (findGo uf.parent x uf.parent.length) 0 +
              uf.size.getD (findGo uf.parent y uf.parent.length) 0),
           uf.nsets - 1⟩
  else .error "x and/or y out of index"

/-! ## Weighted graph (`weighted.rs`) -/

/-- `WeightedGraph` (lines 14-21).  `edges` maps each vertex to its
adjacency chain, a list of `(weight, points_to)` records in chain
order (most recently inserted first, as the source prepends). -/
structure WeightedGraph where
  edges : List (List (Int × Nat))
  degrees : List Int
  nedges : Nat
  nvert : Nat
  directed : Bool
  deriving Repr, DecidableEq

/-- `WeightedGraph::new` (lines 31-45). -/
def WeightedGraph.new (vcapacity : Nat) (directed : Bool) : WeightedGraph :=
  ⟨List.replicate vcapacity [], List.replicate vcapacity 0, 0, 0, directed⟩

/-- `WeightedGraph::insert_edge` (lines 47-63): assert both endpoints
are within capacity; bump the counters and `degrees[i]`; prepend a
`(weight, j)` record to `i`'s chain, and for an undirected graph also
prepend the mirrored `(weight, i)` record to `j`'s chain. -/
def WeightedGraph.insertEdge (g : WeightedGraph) (i j : Nat) (weight : Int) :
    Except String WeightedGraph :=
  if j < g.edges.length ∧ i < g.edges.length then
    let g1 : WeightedGraph :=
      { g with
        nedges := g.nedges + 1
        nvert := g.nvert + 1
        degrees := g.degrees.set i (wrap32 (g.degrees.getD i 0 + 1))
        edges := g.edges.set i ((weight, j) :: g.edges.getD i []) }
    if g.directed then .ok g1
    else .ok { g1 with edges := g1.edges.set j ((weight, i) :: g1.edges.getD j []) }
  else .error "vertices i and j must be within capacity"

/-- Insert a list of `(i, j, weight)` edges in order, propagating any
out-of-capacity fault. -/
def insertEdges (g : WeightedGraph) : List (Nat × Nat × Int) → Except String WeightedGraph
  | [] => .ok g
  | (i, j, w) :: rest => (g.insertEdge i j w).bind fun g' => insertEdges g' rest

/-- A graph is well formed when every edge record points inside the
vertex range.  Every graph built through `new` / `insert_edge` is well
formed (the source asserts both endpoints on insertion). -/
def WF (g : WeightedGraph) : Prop :=
  ∀ chain ∈ g.edges, ∀ e ∈ chain, e.2 < g.edges.length

/-- `min_by_key` over the `(index, distance)` pairs: keeps the first
pair whose key is minimal, as Rust's `Iterator::min_by_key` does. -/
def minByKey : List (Nat × Int) → Option (Nat × Int)
  | [] => none
  | a :: rest => some (rest.foldl (fun best c => if c.2 < best.2 then c else best) a)

/-- The frontier selection shared by `prims` (line 92) and `dijkstras`
(lines 154-161): enumerate `zip(distance, intree)`, drop in-tree
vertices, and take the index of the first minimum-distance entry. -/
def selectMin (distance : List Int) (intree : List Bool) : Option Nat :=
  (minByKey (((distance.zip intree).enum.filter fun p => !p.2.2).map
    fun p => (p.1, p.2.1))).map (·.1)

/-- The mutable state of Prim's loop (`prims`, lines 66-76). -/
structure PrimSt where
  distance : List Int
  intree : List Bool
  parent : List (Option Nat)
  weight : Int
  cur : Nat
  deriving Repr, DecidableEq

/-- The neighbor-relaxation walk of `prims` (lines 82-89): for each
edge record of the current vertex, lower the recorded distance to the
edge weight when it improves, and repoint the parent. -/
def relaxPrim (cur : Nat) (s : PrimSt) : List (Int × Nat) → PrimSt
  | [] => s
  | (w, t) :: rest =>
    if s.distance.getD t 0 > w then
      relaxPrim cur
        { s with distance := s.distance.set t w, parent := s.parent.set t (some cur) } rest
    else relaxPrim cur s rest

/-- The `while !intree[cur_vertex]` loop of `prims` (lines 77-97):
mark the current vertex, add its distance to the weight (except for
the start vertex), relax its neighbors, then pick the next vertex;
`break` when no vertex is out of the tree.  Fuel: each iteration marks
a previously unmarked vertex, so `vertex count + 1` suffices. -/
def primsLoop (g : WeightedGraph) (start : Nat) : PrimSt → Nat → PrimSt
  | s, 0 => s
  | s, fuel + 1 =>
    if s.intree.getD s.cur false then s
    else
      let s1 := { s with intree := s.intree.set s.cur true }
      let s2 :=
        if s1.cur ≠ start then
          { s1 with weight := wrap32 (s1.weight + s1.distance.getD s1.cur 0) }
        else s1
      let s3 := relaxPrim s2.cur s2 (g.edges.getD s2.cur [])
      match selectMin s3.distance s3.intree with
      | none => s3
      | some v => primsLoop g start { s3 with cur := v } fuel

/-- `MinSpanTree` (lines 190-195), minus the graph borrow. -/
structure MinSpanTree where
  parents : List (Option Nat)
  total_weight : Int
  deriving Repr, DecidableEq

/-- `WeightedGraph::prims` (lines 65-99) returning the loop's full
final state: distances and in-tree marks are initialized, then
`distance[start] = 0` is the first vector access and faults when
`start` is out of range; afterwards the marking loop runs to
completion. -/
def WeightedGraph.primsFull (g : WeightedGraph) (start : Nat) : Except String PrimSt :=
  if start < g.edges.length then
    .ok (primsLoop g start
      { distance := (List.replicate g.edges.length i32Max).set start 0
        intree := List.replicate g.edges.length false
        parent := List.replicate g.edges.length none
        weight := 0
        cur := start } (g.edges.length + 1))
  else .error "index out of bounds"

/-- `WeightedGraph::prims`, projected to the `MinSpanTree` the source
returns (line 98). -/
def WeightedGraph.prims (g : WeightedGraph) (start : Nat) : Except String MinSpanTree :=
  (g.primsFull start).map fun s => ⟨s.parent, s.weight⟩

/-- `EdgePair` (lines 177-188): the `(source, points_to, weight)`
record Kruskal's algorithm stores in the heap. -/
structure EdgePair where
  source : Nat
  points_to : Nat
  weight : Int
  deriving Repr, DecidableEq

instance : Inhabited EdgePair := ⟨⟨0, 0, 0⟩⟩

/-- The `PartialOrd for EdgePair` impl (lines 286-317): all four
comparisons look only at the weight. -/
def edgePairOrd : HOrd EdgePair :=
  ⟨fun a b => decide (a.weight > b.weight), fun a b => decide (a.weight ≤ b.weight)⟩

/-- The heap-building pass of `kruskals` (lines 108-119): enumerate
each vertex's chain in order and insert every record as an
`EdgePair`. -/
def kruskalRecords (g : WeightedGraph) : List EdgePair :=
  (g.edges.enum.map fun p => p.2.map fun e => EdgePair.mk p.1 e.2 e.1).flatten

/-- The pop loop of `kruskals` (lines 122-128): pop the
minimum-weight record; when its endpoints have distinct roots, point
`parent[points_to]` at `source`, add the weight, and union the two
sets.  `find`/`union` faults propagate.  Fuel: every pop shrinks the
heap by one element. -/
def kruskalsLoop : List EdgePair → UnionFind → List (Option Nat) → Int → Nat →
    Except String (List (Option Nat) × Int)
  | _, _, parent, weight, 0 => .ok (parent, weight)
  | q, uf, parent, weight, fuel + 1 =>
    match hpPop edgePairOrd q with
    | (none, _) => .ok (parent, weight)
    | (some e, q') =>
      (uf.find e.source).bind fun rs =>
      (uf.find e.points_to).bind fun rt =>
      if rs = rt then kruskalsLoop q' uf parent weight fuel
      else
        (uf.union e.source e.points_to).bind fun uf' =>
        kruskalsLoop q' uf' (parent.set e.points_to (some e.source))
          (wrap32 (weight + e.weight)) fuel

/-- `WeightedGraph::kruskals` (lines 101-130): build the heap of edge
records, create a union-find sized to the *heap entry count* (line
121), then run the pop loop. -/
def WeightedGraph.kruskals (g : WeightedGraph) : Except String MinSpanTree :=
  (kruskalsLoop (hpInsertAll edgePairOrd [] (kruskalRecords g))
    (UnionFind.new (hpInsertAll edgePairOrd [] (kruskalRecords g)).length)
    (List.replicate g.edges.length none) 0
    ((hpInsertAll edgePairOrd [] (kruskalRecords g)).length + 1)).map
    fun pw => ⟨pw.1, pw.2⟩

/-- The mutable state of Dijkstra's loop (`dijkstras`, lines
133-141). -/
structure DijkSt where
  distance : List Int
  intree : List Bool
  parent : List (Option Nat)
  cur : Nat
  deriving Repr, DecidableEq

/-- The panic message of the positivity assertion at line 147. -/
def dijkstraAssertMsg : String :=
  "Dijkstras algorithm does not work for graphs with negative weights"

/-- The relaxation walk of `dijkstras` (lines 145-153): each edge
record of the current vertex is first checked to have a strictly
positive weight (`assert!`, line 147 — a fatal fault otherwise), then
the tentative distance `distance[cur] + weight` (wrapping `i32`
addition) replaces a larger recorded distance. -/
def relaxDijk (cur : Nat) (s : DijkSt) : List (Int × Nat) → Except String DijkSt
  | [] => .ok s
  | (w, t) :: rest =>
    if w ≤ 0 then .error dijkstraAssertMsg
    else if s.distance.getD t 0 > wrap32 (s.distance.getD cur 0 + w) then
      relaxDijk cur
        { s with
          distance := s.distance.set t (wrap32 (s.distance.getD cur 0 + w))
          parent := s.parent.set t (some cur) } rest
    else relaxDijk cur s rest

/-- The `while !intree[cur_vertex]` loop of `dijkstras` (lines
143-162): mark the current vertex, relax its neighbors (possibly
faulting on a non-positive weight), then pick the next vertex by the
same scan as Prim's; `break` when no vertex is unmarked. -/
def dijkstrasLoop (g : WeightedGraph) : DijkSt → Nat → Except String DijkSt
  | s, 0 => .ok s
  | s, fuel + 1 =>
    if s.intree.getD s.cur false then .ok s
    else
      (relaxDijk s.cur { s with intree := s.intree.set s.cur true }
          (g.edges.getD s.cur [])).bind fun s2 =>
      match selectMin s2.distance s2.intree with
      | none => .ok s2
      | some v => dijkstrasLoop g { s2 with cur := v } fuel

/-- `ShortestPaths` (lines 204-210), minus the graph borrow. -/
structure ShortestPaths where
  start : Nat
  parents : List (Option Nat)
  distance : List Int
  deriving Repr, DecidableEq

/-- `WeightedGraph::dijkstras` (lines 132-164) returning the loop's
full final state; `distance[start] = 0` (line 141) is the first
vector access and faults when `start` is out of range. -/
def WeightedGraph.dijkstrasFull (g : WeightedGraph) (start : Nat) : Except String DijkSt :=
  if start < g.edges.length then
    dijkstrasLoop g
      { distance := (List.replicate g.edges.length i32Max).set start 0
        intree := List.replicate g.edges.length false
        parent := List.replicate g.edges.length none
        cur := start } (g.edges.length + 1)
  else .error "index out of bounds"

/-- `WeightedGraph::dijkstras`, projected to the `ShortestPaths` the
source returns (line 163). -/
def WeightedGraph.dijkstras (g : WeightedGraph) (start : Nat) :
    Except String ShortestPaths :=
  (g.dijkstrasFull start).map fun s => ⟨start, s.parent, s.distance⟩

/-- `Path` (lines 230-234). -/
structure Path where
  path : List Nat
  weight : Int
  deriving Repr, DecidableEq

/-- The parent walk of `path_to` (lines 221-225): prepend each parent,
return the path and `distance[end]` once `start` is met, `none` when
the chain runs out.  Fuel: a walk that revisits a vertex without
meeting `start` loops forever in the source; on the verified inputs
the walk is shorter than the fuel passed. -/
def pathToGo (sp : ShortestPaths) (endv : Nat) : Option Nat → List Nat → Nat → Option Path
  | _, _, 0 => none
  | none, _, _ + 1 => none
  | some adj, path, fuel + 1 =>
    let path' := adj :: path
    if sp.start = adj then some ⟨path', sp.distance.getD endv 0⟩
    else pathToGo sp endv (sp.parents.getD adj none) path' fuel

/-- `ShortestPaths::path_to` (lines 217-227): `self.parents[end]` is
the first vector access and faults when `end` is out of range;
otherwise walk the parent chain back toward `start`. -/
def ShortestPaths.path_to (sp : ShortestPaths) (endv : Nat) :
    Except String (Option Path) :=
  if endv < sp.parents.length then
    .ok (pathToGo sp endv (sp.parents.getD endv none) [endv] (sp.parents.length + 1))
  else .error "index out of bounds"

/-- Decidable equality of fallible results, used to evaluate the
embedding on concrete inputs. -/
instance {ε α : Type} [DecidableEq ε] [DecidableEq α] : DecidableEq (Except ε α) :=
  fun x y =>
  match x, y with
  | .ok a, .ok b =>
    match decEq a b with
    | isTrue h => isTrue (congrArg Except.ok h)
    | isFalse h => isFalse fun hc => h (Except.ok.inj hc)
  | .error a, .error b =>
    match decEq a b with
    | isTrue h => isTrue (congrArg Except.error h)
    | isFalse h => isFalse fun hc => h (Except.error.inj hc)
  | .ok _, .error _ => isFalse fun hc => Except.noConfusion hc
  | .error _, .ok _ => isFalse fun hc => Except.noConfusion hc

/-- Boolean test that a fallible computation completed. -/
def isOkB {ε α : Type} : Except ε α → Bool
  | .ok _ => true
  | .error _ => false

/-- Boolean test that a fallible computation faulted. -/
def isErrB {ε α : Type} : Except ε α → Bool
  | .ok _ => false
  | .error _ => true

/-- Boolean test that a list of integers is non-decreasing. -/
def nondecB : List Int → Bool
  | [] => true
  | [_] => true
  | a :: b :: rest => decide (a ≤ b) && nondecB (b :: rest)

/-! ## Concrete inputs used by the claims -/

/-- The spec's 7-vertex undirected MST scenario (§8), also the
`prims`/`kruskals` tests of `weighted.rs`. -/
def specGraph7 : Except String WeightedGraph :=
  insertEdges (WeightedGraph.new 7 false)
    [(0, 1, 5), (0, 2, 7), (0, 3, 12), (1, 2, 9), (1, 4, 7), (2, 3, 4),
     (2, 4, 4), (2, 5, 3), (3, 5, 7), (4, 5, 2), (4, 6, 5), (5, 6, 2)]

/-- A 4-vertex undirected graph with two components `{0,1}` and
`{2,3}`. -/
def discGraph4 : Except String WeightedGraph :=
  insertEdges (WeightedGraph.new 4 false) [(0, 1, 5), (2, 3, 1)]

/-- A 2-vertex undirected graph with the single edge `0-1` of
weight 1. -/
def pathGraph2 : Except String WeightedGraph :=
  insertEdges (WeightedGraph.new 2 false) [(0, 1, 1)]

/-- A 5-vertex undirected graph with the single edge `3-4`: two heap
entries, so Kruskal's union-find has only two elements. -/
def sparseGraph5 : Except String WeightedGraph :=
  insertEdges (WeightedGraph.new 5 false) [(3, 4, 1)]

/-- The insert sequence that breaks the heap: it builds the valid
min-heap `[0, 1, 2, 8, 9, 3, 2]`. -/
def badHeapInserts : List Int := [0, 1, 2, 8, 9, 3, 2]

/-! ## Theorems for the claims -/

/-- C1.  Popping all `n` elements of the min-heap does *not* always
return them in non-decreasing order: after inserting
`0, 1, 2, 8, 9, 3, 2`, the seven pops return `0, 1, 2, 3, 8, 2, 9`,
in which `8` precedes `2`.  `heapify` drops the last element into the
hole left by the bubbled-down path without re-sifting it, which can
leave it above smaller elements. -/
theorem heap_popAll_not_sorted :
    popAll intOrd (hpInsertAll intOrd [] badHeapInserts) 7 = [0, 1, 2, 3, 8, 2, 9] ∧
    nondecB (popAll intOrd (hpInsertAll intOrd [] badHeapInserts) 7) = false :=
  ⟨rfl, rfl⟩

/-- C8.  The min-heap property does *not* hold after every `pop`:
after inserting `0, 1, 2, 8, 9, 3, 2` (stored exactly so, a valid
min-heap) one `pop` leaves the sequence `[1, 8, 2, 2, 9, 3]`, where
the element `8` at index 1 exceeds its left child `2` at index 3. -/
theorem heap_property_violated_after_pop :
    isMinHeapB (hpInsertAll intOrd [] badHeapInserts) = true ∧
    (hpPop intOrd (hpInsertAll intOrd [] badHeapInserts)).2 = [1, 8, 2, 2, 9, 3] ∧
    isMinHeapB (hpPop intOrd (hpInsertAll intOrd [] badHeapInserts)).2 = false :=
  ⟨rfl, rfl, rfl⟩

/-- C2.  On the spec's 7-vertex scenario, `prims` reports total weight
23 from every start vertex in `0..7` and `kruskals` reports 23. -/
theorem mst_seven_vertex_scenario_weight_23 :
    ((List.range 7).all fun s =>
      decide ((specGraph7.bind fun g => g.prims s).map MinSpanTree.total_weight =
        .ok 23)) = true ∧
    (specGraph7.bind fun g => g.kruskals).map MinSpanTree.total_weight = .ok 23 :=
  ⟨rfl, rfl⟩

/-- C7.  `path_to` does not return a path for every reachable vertex:
on the 2-vertex graph with edge `0-1`, vertex 0 is reachable from
itself (its recorded distance is 0, not the sentinel), yet
`dijkstras(0).path_to(0)` returns `None` — the walk starts at
`parents[0] = None` and never compares `end` itself with `start`. -/
theorem path_to_start_returns_none :
    (pathGraph2.bind fun g => g.dijkstras 0).bind (fun sp => sp.path_to 0) =
      .ok none ∧
    (pathGraph2.bind fun g => g.dijkstras 0).map (fun sp => sp.distance.getD 0 0) =
      .ok 0 ∧
    (pathGraph2.bind fun g => g.dijkstras 0).bind (fun sp => sp.path_to 1) =
      .ok (some ⟨[0, 1], 1⟩) :=
  ⟨rfl, rfl, rfl⟩

/-- C3, counterexample.  From `new(2)`, the call sequence
`union(0, 1); union(0, 1)` is a legal sequence of `union` calls, but
after it `size(0) = 4` while only 2 elements share 0's
representative: the no-op guard compares the arguments, not the
roots, so the second call adds the set's size to itself. -/
theorem union_find_size_after_redundant_union :
    ((((UnionFind.new 2).union 0 1).bind fun u => u.union 0 1).bind
        fun u => u.size_ 0) = .ok 4 ∧
    ((((UnionFind.new 2).union 0 1).bind fun u => u.union 0 1).map
        fun u => (List.range 2).countP fun e => decide (u.find e = u.find 0)) =
      .ok 2 :=
  ⟨rfl, rfl⟩

/-- C4, counterexample.  On the 2-vertex graph with no edges,
vertex 1 is unreachable from 0, yet `prims(0)` reports total weight
`i32::MAX = 2147483647`, not 0: the selection scan also returns
vertices whose distance is still the sentinel, so the loop marks
vertex 1 and adds its sentinel distance to the weight. -/
theorem prims_disconnected_adds_sentinel :
    ((WeightedGraph.new 2 false).prims 0).map MinSpanTree.total_weight =
      .ok 2147483647 ∧
    ((WeightedGraph.new 2 false).primsFull 0).map PrimSt.intree =
      .ok [true, true] :=
  ⟨rfl, rfl⟩

/-- C5, counterexample.  On the 4-vertex graph with components
`{0,1}` (edge weight 5) and `{2,3}` (edge weight 1), `dijkstras(0)`
selects the unreachable vertex 2 while its distance is still the
sentinel and relaxes from it: the returned distances of the
unreachable vertices are the wrapped values `-2147483647` and
`-2147483648` (and `parent[3] = 2`), not the sentinel
`2147483647`. -/
theorem dijkstras_disconnected_corrupts_distance :
    (discGraph4.bind fun g => g.dijkstras 0) =
      .ok ⟨0, [none, some 0, some 3, some 2], [0, 5, -2147483647, -2147483648]⟩ :=
  rfl

/-- C6, counterexample.  On a 5-vertex undirected graph whose only
edge is `3-4`, the heap holds 2 records, so Kruskal's union-find has
elements `{0, 1}`; the very first `find(3)` is out of range and
faults — the disjoint-set sized to the heap entry count is *not*
always large enough for the vertex indices the edges use. -/
theorem kruskals_union_find_sizing_fault :
    (sparseGraph5.bind fun g => g.kruskals) = .error "idx: out of index" :=
  rfl

/-! ## Properties of the frontier selection -/

theorem minByKey_mem {l : List (Nat × Int)} {a : Nat × Int}
    (h : minByKey l = some a) : a ∈ l := by
  cases l with
  | nil => simp [minByKey] at h
  | cons b rest =>
    simp only [minByKey, Option.some.injEq] at h
    subst h
    suffices hgen : ∀ (r : List (Nat × Int)) (acc : Nat × Int),
        r.foldl (fun best c => if c.2 < best.2 then c else best) acc = acc ∨
        r.foldl (fun best c => if c.2 < best.2 then c else best) acc ∈ r by
      rcases hgen rest b with h | h
      · rw [h]; exact List.mem_cons_self b rest
      · exact List.mem_cons_of_mem b h
    intro r
    induction r with
    | nil => intro acc; left; rfl
    | cons c r ih =>
      intro acc
      simp only [List.foldl_cons]
      rcases ih (if c.2 < acc.2 then c else acc) with h | h
      · rw [h]
        split
        · right; exact List.mem_cons_self c r
        · left; rfl
      · right; exact List.mem_cons_of_mem c h

theorem minByKey_eq_none_iff {l : List (Nat × Int)} : minByKey l = none ↔ l = [] := by
  cases l <;> simp [minByKey]

theorem selectMin_eq_none_iff {d : List Int} {t : List Bool}
    (hl : d.length = t.length) :
    selectMin d t = none ↔ ∀ b ∈ t, b = true := by
  unfold selectMin
  rw [Option.map_eq_none', minByKey_eq_none_iff, List.map_eq_nil_iff,
    List.filter_eq_nil_iff]
  constructor
  · intro h b hb
    rcases List.mem_iff_getElem.mp hb with ⟨i, hi, hib⟩
    have hiz : i < (d.zip t).length := by
      rw [List.length_zip, hl]; exact lt_min hi hi
    have hmem : (i, ((d.zip t)[i].1, (d.zip t)[i].2)) ∈ (d.zip t).enum := by
      rw [List.mem_enum_iff_getElem?]
      simp [List.getElem?_eq_getElem hiz]
    have hz2 : (d.zip t)[i].2 = b := by
      have := (List.getElem?_zip_eq_some.mp
        (List.getElem?_eq_getElem hiz)).2
      rw [List.getElem?_eq_getElem hi] at this
      simp only [hib] at this
      exact (Option.some.inj this).symm
    have := h _ hmem
    simp only [Bool.not_eq_true', Bool.not_eq_false] at this
    rw [← hz2, this]
  · intro h p hp
    rw [List.mem_enum_iff_getElem?] at hp
    have := List.getElem?_zip_eq_some.mp hp
    have hb : p.2.2 ∈ t := by
      rcases List.getElem?_eq_some_iff.mp this.2 with ⟨hlt, hget⟩
      rw [← hget]; exact List.getElem_mem hlt
    simp [h _ hb]

theorem selectMin_eq_some {d : List Int} {t : List Bool} {v : Nat}
    (h : selectMin d t = some v) : v < t.length ∧ t.getD v false = false := by
  unfold selectMin at h
  rcases Option.map_eq_some'.mp h with ⟨a, ha, hav⟩
  have hmem := minByKey_mem ha
  rcases List.mem_map.mp hmem with ⟨p, hp, hpa⟩
  have hp' := List.mem_filter.mp hp
  rw [List.mem_enum_iff_getElem?] at hp'
  have hz := List.getElem?_zip_eq_some.mp hp'.1
  rcases List.getElem?_eq_some_iff.mp hz.2 with ⟨hlt, hget⟩
  have hv : v = p.1 := by rw [← hav, ← hpa]
  subst hv
  refine ⟨hlt, ?_⟩
  have hfalse : p.2.2 = false := by
    have := hp'.2
    simp only [Bool.not_eq_true', decide_eq_true_eq] at this
    exact this
  rw [List.getD_eq_getElem?_getD, List.getElem?_eq_getElem hlt, hget, hfalse]
  rfl

/-- The number of unmarked vertices, the loop measure for Prim's and
Dijkstra's main loops. -/
def countFalse (t : List Bool) : Nat := t.countP fun b => !b

theorem countFalse_set_true {t : List Bool} {i : Nat} (hi : i < t.length)
    (hf : t.getD i false = false) :
    countFalse (t.set i true) = countFalse t - 1 := by
  unfold countFalse
  rw [List.countP_set _ _ _ _ hi]
  have : t[i] = false := by
    rw [List.getD_eq_getElem?_getD, List.getElem?_eq_getElem hi] at hf
    exact hf
  simp [this]

theorem countFalse_pos {t : List Bool} {i : Nat} (hi : i < t.length)
    (hf : t.getD i false = false) : 0 < countFalse t := by
  apply List.countP_pos_iff.mpr
  refine ⟨false, ?_, rfl⟩
  have : t[i] = false := by
    rw [List.getD_eq_getElem?_getD, List.getElem?_eq_getElem hi] at hf
    exact hf
  rw [← this]; exact List.getElem_mem hi

/-! ## Prim's loop marks every vertex -/

theorem relaxPrim_intree (cur : Nat) (s : PrimSt) (ch : List (Int × Nat)) :
    (relaxPrim cur s ch).intree = s.intree := by
  induction ch generalizing s with
  | nil => rfl
  | cons e rest ih =>
    obtain ⟨w, t⟩ := e
    unfold relaxPrim
    split <;> exact ih _

theorem relaxPrim_dlen (cur : Nat) (s : PrimSt) (ch : List (Int × Nat)) :
    (relaxPrim cur s ch).distance.length = s.distance.length := by
  induction ch generalizing s with
  | nil => rfl
  | cons e rest ih =>
    obtain ⟨w, t⟩ := e
    unfold relaxPrim
    split
    · rw [ih]; exact List.length_set ..
    · exact ih _

theorem primsLoop_allTrue (g : WeightedGraph) (start : Nat) :
    ∀ (fuel : Nat) (s : PrimSt),
      s.distance.length = s.intree.length →
      s.cur < s.intree.length →
      s.intree.getD s.cur false = false →
      countFalse s.intree ≤ fuel →
      ∀ b ∈ (primsLoop g start s fuel).intree, b = true := by
  intro fuel
  induction fuel with
  | zero =>
    intro s _ hc hf hcount
    exact absurd (Nat.lt_of_lt_of_le (countFalse_pos hc hf) hcount)
      (by exact Nat.lt_irrefl 0)
  | succ fuel ih =>
    intro s hlen hc hf hcount
    unfold primsLoop
    rw [hf]
    simp only [Bool.false_eq_true, if_false]
    set s1 : PrimSt := { s with intree := s.intree.set s.cur true } with hs1
    set s2 : PrimSt :=
      if s1.cur ≠ start then
        { s1 with weight := wrap32 (s1.weight + s1.distance.getD s1.cur 0) }
      else s1 with hs2
    have hs2i : s2.intree = s.intree.set s.cur true := by
      rw [hs2]; split <;> rfl
    have hs2d : s2.distance = s.distance := by
      rw [hs2]; split <;> rfl
    have hs2c : s2.cur = s.cur := by
      rw [hs2]; split <;> rfl
    set s3 : PrimSt := relaxPrim s2.cur s2 (g.edges.getD s2.cur []) with hs3
    have hs3i : s3.intree = s.intree.set s.cur true := by
      rw [hs3, relaxPrim_intree, hs2i]
    have hs3d : s3.distance.length = s.distance.length := by
      rw [hs3, relaxPrim_dlen, hs2d]
    have hlen3 : s3.distance.length = s3.intree.length := by
      rw [hs3d, hs3i, List.length_set, hlen]
    have hcount3 : countFalse s3.intree = countFalse s.intree - 1 := by
      rw [hs3i]; exact countFalse_set_true hc hf
    cases hsel : selectMin s3.distance s3.intree with
    | none =>
      intro b hb
      exact (selectMin_eq_none_iff hlen3).mp hsel b hb
    | some v =>
      have hv := selectMin_eq_some hsel
      intro b hb
      refine ih { s3 with cur := v } ?_ ?_ ?_ ?_ b hb
      · exact hlen3
      · exact hv.1
      · exact hv.2
      · rw [hcount3]
        have h1 := countFalse_pos hc hf
        omega

/-- C4, amended.  For every graph and in-range start vertex, Prim's
main loop does *not* terminate while any vertex is still out of the
tree: the selection scan returns a vertex (possibly at the sentinel
distance) whenever one is unmarked, so the loop ends with every
vertex — reachable or not — marked in-tree.  (Per the counterexample,
an unreachable vertex that is still at the sentinel distance when
selected can then add `i32::MAX` to `total_weight`; later unreachable
vertices may instead be relaxed from earlier ones and add their edge
weights.) -/
theorem prims_marks_every_vertex (g : WeightedGraph) (start : Nat)
    (h : start < g.edges.length) (st : PrimSt)
    (hok : g.primsFull start = .ok st) :
    ∀ b ∈ st.intree, b = true := by
  unfold WeightedGraph.primsFull at hok
  rw [if_pos h] at hok
  cases hok
  apply primsLoop_allTrue
  · simp
  · simpa using h
  · rw [List.getD_eq_getElem?_getD, List.getElem?_eq_getElem (by simpa using h)]
    simp
  · show countFalse (List.replicate g.edges.length false) ≤ g.edges.length + 1
    have : countFalse (List.replicate g.edges.length false) ≤ g.edges.length := by
      unfold countFalse
      exact Nat.le_trans (List.countP_le_length _)
        (Nat.le_of_eq (List.length_replicate ..))
    omega

/-- C4, witness: the 2-vertex disconnected graph with start 0; the
unreachable vertex 1 ends up marked in-tree. -/
theorem prims_marks_every_vertex_witness :
    (PrimSt.mk [0, 2147483647] [true, true] [none, none] 2147483647 1).intree.getD
      1 false = true :=
  prims_marks_every_vertex (WeightedGraph.new 2 false) 0 (by decide)
    (PrimSt.mk [0, 2147483647] [true, true] [none, none] 2147483647 1) rfl
    ((PrimSt.mk [0, 2147483647] [true, true] [none, none] 2147483647 1).intree.getD
      1 false) (by decide)

/-! ## Dijkstra's loop: marking, faulting, and length preservation -/

theorem getD_set_self {α : Type} {l : List α} {i : Nat} {a d : α}
    (h : i < l.length) : (l.set i a).getD i d = a := by
  simp [List.getD_eq_getElem?_getD, List.getElem?_set_self', h]

theorem getD_set_ne {α : Type} {l : List α} {i j : Nat} (h : i ≠ j) (a d : α) :
    (l.set i a).getD j d = l.getD j d := by
  simp [List.getD_eq_getElem?_getD, List.getElem?_set_ne h]

theorem getD_mem {α : Type} {l : List α} {i : Nat} {d : α} (h : i < l.length) :
    l.getD i d ∈ l := by
  rw [List.getD_eq_getElem l d h]
  exact List.getElem_mem h

theorem relaxDijk_ok_intree {cur : Nat} :
    ∀ {ch : List (Int × Nat)} {s s' : DijkSt},
      relaxDijk cur s ch = .ok s' → s'.intree = s.intree := by
  intro ch
  induction ch with
  | nil => intro s s' h; cases h; rfl
  | cons e rest ih =>
    intro s s' h
    obtain ⟨w, t⟩ := e
    unfold relaxDijk at h
    split at h
    · cases h
    · split at h
      · rw [ih h]
      · exact ih h

theorem relaxDijk_ok_lengths {cur : Nat} :
    ∀ {ch : List (Int × Nat)} {s s' : DijkSt},
      relaxDijk cur s ch = .ok s' →
      s'.distance.length = s.distance.length ∧ s'.parent.length = s.parent.length := by
  intro ch
  induction ch with
  | nil => intro s s' h; cases h; exact ⟨rfl, rfl⟩
  | cons e rest ih =>
    intro s s' h
    obtain ⟨w, t⟩ := e
    unfold relaxDijk at h
    split at h
    · cases h
    · split at h
      · have := ih h
        simpa [List.length_set] using this
      · exact ih h

theorem relaxDijk_ok_pos {cur : Nat} :
    ∀ {ch : List (Int × Nat)} {s s' : DijkSt},
      relaxDijk cur s ch = .ok s' → ∀ e ∈ ch, 0 < e.1 := by
  intro ch
  induction ch with
  | nil => intro s s' _ e he; cases he
  | cons e0 rest ih =>
    intro s s' h e he
    obtain ⟨w, t⟩ := e0
    unfold relaxDijk at h
    split at h
    · cases h
    · rcases List.mem_cons.mp he with rfl | hmem
      · show 0 < w
        omega
      · split at h
        · exact ih h e hmem
        · exact ih h e hmem

theorem relaxDijk_error_bad {cur : Nat} :
    ∀ {ch : List (Int × Nat)} {s : DijkSt} {msg : String},
      relaxDijk cur s ch = .error msg → ∃ e ∈ ch, e.1 ≤ 0 := by
  intro ch
  induction ch with
  | nil => intro s msg h; cases h
  | cons e0 rest ih =>
    intro s msg h
    obtain ⟨w, t⟩ := e0
    unfold relaxDijk at h
    split at h
    · exact ⟨(w, t), List.mem_cons_self .., by assumption⟩
    · split at h
      · rcases ih h with ⟨e, he, hbad⟩
        exact ⟨e, List.mem_cons_of_mem _ he, hbad⟩
      · rcases ih h with ⟨e, he, hbad⟩
        exact ⟨e, List.mem_cons_of_mem _ he, hbad⟩

/-- C5, amended: helper.  Whenever Dijkstra's loop returns without
faulting, every vertex — reachable or not — has been finalized: the
selection scan also returns sentinel-distance vertices, so the loop
only stops once no unmarked vertex remains. -/
theorem dijkstrasLoop_ok_allTrue (g : WeightedGraph) :
    ∀ (fuel : Nat) (s : DijkSt) (st : DijkSt),
      s.distance.length = s.intree.length →
      s.cur < s.intree.length →
      s.intree.getD s.cur false = false →
      countFalse s.intree ≤ fuel →
      dijkstrasLoop g s fuel = .ok st →
      ∀ b ∈ st.intree, b = true := by
  intro fuel
  induction fuel with
  | zero =>
    intro s st _ hc hf hcount
    exact absurd (Nat.lt_of_lt_of_le (countFalse_pos hc hf) hcount)
      (Nat.lt_irrefl 0)
  | succ fuel ih =>
    intro s st hlen hc hf hcount hrun
    unfold dijkstrasLoop at hrun
    rw [hf] at hrun
    simp only [Bool.false_eq_true, if_false] at hrun
    cases hrel : relaxDijk s.cur { s with intree := s.intree.set s.cur true }
        (g.edges.getD s.cur []) with
    | error msg => rw [hrel] at hrun; cases hrun
    | ok s2 =>
      rw [hrel] at hrun
      simp only [Except.bind] at hrun
      have hi2 : s2.intree = s.intree.set s.cur true := relaxDijk_ok_intree hrel
      have hl2 := relaxDijk_ok_lengths hrel
      have hlen2 : s2.distance.length = s2.intree.length := by
        rw [hl2.1, hi2, List.length_set]
        exact hlen
      have hcount2 : countFalse s2.intree = countFalse s.intree - 1 := by
        rw [hi2]; exact countFalse_set_true hc hf
      cases hsel : selectMin s2.distance s2.intree with
      | none =>
        rw [hsel] at hrun
        cases hrun
        intro b hb
        exact (selectMin_eq_none_iff hlen2).mp hsel b hb
      | some v =>
        rw [hsel] at hrun
        have hv := selectMin_eq_some hsel
        refine ih { s2 with cur := v } st hlen2 hv.1 hv.2 ?_ hrun
        rw [hcount2]
        have := countFalse_pos hc hf
        omega

theorem dijkstrasLoop_ok_lengths (g : WeightedGraph) :
    ∀ (fuel : Nat) (s st : DijkSt),
      dijkstrasLoop g s fuel = .ok st →
      st.parent.length = s.parent.length ∧ st.distance.length = s.distance.length := by
  intro fuel
  induction fuel with
  | zero => intro s st h; cases h; exact ⟨rfl, rfl⟩
  | succ fuel ih =>
    intro s st hrun
    unfold dijkstrasLoop at hrun
    split at hrun
    · cases hrun; exact ⟨rfl, rfl⟩
    · cases hrel : relaxDijk s.cur { s with intree := s.intree.set s.cur true }
          (g.edges.getD s.cur []) with
      | error msg => rw [hrel] at hrun; cases hrun
      | ok s2 =>
        rw [hrel] at hrun
        simp only [Except.bind] at hrun
        have hl2 := relaxDijk_ok_lengths hrel
        cases hsel : selectMin s2.distance s2.intree with
        | none =>
          rw [hsel] at hrun
          cases hrun
          exact ⟨hl2.2, hl2.1⟩
        | some v =>
          rw [hsel] at hrun
          have := ih { s2 with cur := v } st hrun
          exact ⟨this.1.trans hl2.2, this.2.trans hl2.1⟩

/-- C5, amended.  Dijkstra's main loop does *not* stop once every
finite-distance vertex is finalized: whenever the run completes
without a fault, every vertex — including ones whose distance still
holds the sentinel — has been selected and finalized, and (per the
counterexample) relaxing from such a vertex wraps the sentinel and
corrupts the recorded distances of unreachable vertices. -/
theorem dijkstras_marks_every_vertex (g : WeightedGraph) (start : Nat)
    (h : start < g.edges.length) (st : DijkSt)
    (hrun : g.dijkstrasFull start = .ok st) :
    ∀ b ∈ st.intree, b = true := by
  unfold WeightedGraph.dijkstrasFull at hrun
  rw [if_pos h] at hrun
  refine dijkstrasLoop_ok_allTrue g _ _ st ?_ ?_ ?_ ?_ hrun
  · simp
  · simpa using h
  · rw [List.getD_eq_getElem?_getD, List.getElem?_eq_getElem (by simpa using h)]
    simp
  · show countFalse (List.replicate g.edges.length false) ≤ g.edges.length + 1
    unfold countFalse
    exact Nat.le_trans (List.countP_le_length _)
      (by rw [List.length_replicate]; omega)

/-- C5, witness: the 2-vertex edgeless graph from start 0; the run
completes and the unreachable vertex 1 is finalized. -/
theorem dijkstras_marks_every_vertex_witness :
    (DijkSt.mk [0, 2147483647] [true, true] [none, none] 1).intree.getD 1 false =
      true :=
  dijkstras_marks_every_vertex (WeightedGraph.new 2 false) 0 (by decide)
    (DijkSt.mk [0, 2147483647] [true, true] [none, none] 1) rfl
    ((DijkSt.mk [0, 2147483647] [true, true] [none, none] 1).intree.getD 1 false)
    (by decide)

theorem dijkstrasLoop_error_bad (g : WeightedGraph) :
    ∀ (fuel : Nat) (s : DijkSt) (msg : String),
      s.intree.length = g.edges.length →
      s.cur < s.intree.length →
      dijkstrasLoop g s fuel = .error msg →
      ∃ v, v < g.edges.length ∧ ∃ e ∈ g.edges.getD v [], e.1 ≤ 0 := by
  intro fuel
  induction fuel with
  | zero => intro s msg _ _ h; cases h
  | succ fuel ih =>
    intro s msg hn hc hrun
    unfold dijkstrasLoop at hrun
    split at hrun
    · cases hrun
    · cases hrel : relaxDijk s.cur { s with intree := s.intree.set s.cur true }
          (g.edges.getD s.cur []) with
      | error m =>
        rcases relaxDijk_error_bad hrel with ⟨e, he, hbad⟩
        exact ⟨s.cur, hn ▸ hc, e, he, hbad⟩
      | ok s2 =>
        rw [hrel] at hrun
        simp only [Except.bind] at hrun
        cases hsel : selectMin s2.distance s2.intree with
        | none => rw [hsel] at hrun; cases hrun
        | some v =>
          rw [hsel] at hrun
          have hv := selectMin_eq_some hsel
          have hi2 : s2.intree = s.intree.set s.cur true := relaxDijk_ok_intree hrel
          refine ih { s2 with cur := v } msg ?_ hv.1 hrun
          show s2.intree.length = g.edges.length
          rw [hi2, List.length_set, hn]

theorem dijkstrasLoop_ok_chains_pos (g : WeightedGraph) :
    ∀ (fuel : Nat) (s st : DijkSt),
      s.distance.length = s.intree.length →
      s.intree.length = g.edges.length →
      s.cur < s.intree.length →
      s.intree.getD s.cur false = false →
      countFalse s.intree ≤ fuel →
      (∀ v, v < g.edges.length → s.intree.getD v false = true →
        ∀ e ∈ g.edges.getD v [], 0 < e.1) →
      dijkstrasLoop g s fuel = .ok st →
      ∀ v, v < g.edges.length → ∀ e ∈ g.edges.getD v [], 0 < e.1 := by
  intro fuel
  induction fuel with
  | zero =>
    intro s st _ _ hc hf hcount
    exact absurd (Nat.lt_of_lt_of_le (countFalse_pos hc hf) hcount)
      (Nat.lt_irrefl 0)
  | succ fuel ih =>
    intro s st hlen hn hc hf hcount hinv hrun
    unfold dijkstrasLoop at hrun
    rw [hf] at hrun
    simp only [Bool.false_eq_true, if_false] at hrun
    cases hrel : relaxDijk s.cur { s with intree := s.intree.set s.cur true }
        (g.edges.getD s.cur []) with
    | error m => rw [hrel] at hrun; cases hrun
    | ok s2 =>
      rw [hrel] at hrun
      simp only [Except.bind] at hrun
      have hi2 : s2.intree = s.intree.set s.cur true := relaxDijk_ok_intree hrel
      have hl2 := relaxDijk_ok_lengths hrel
      have hlen2 : s2.distance.length = s2.intree.length := by
        rw [hl2.1, hi2, List.length_set]
        exact hlen
      have hn2 : s2.intree.length = g.edges.length := by
        rw [hi2, List.length_set, hn]
      have hcurpos : ∀ e ∈ g.edges.getD s.cur [], 0 < e.1 := relaxDijk_ok_pos hrel
      have hinv2 : ∀ v, v < g.edges.length → s2.intree.getD v false = true →
          ∀ e ∈ g.edges.getD v [], 0 < e.1 := by
        intro v hvn hmark
        rcases eq_or_ne s.cur v with rfl | hne
        · exact hcurpos
        · rw [hi2, getD_set_ne hne] at hmark
          exact hinv v hvn hmark
      cases hsel : selectMin s2.distance s2.intree with
      | none =>
        intro v hvn e he
        have hvlen : v < s2.intree.length := hn2 ▸ hvn
        have hmark : s2.intree.getD v false = true := by
          rw [List.getD_eq_getElem?_getD, List.getElem?_eq_getElem hvlen]
          exact (selectMin_eq_none_iff hlen2).mp hsel _ (List.getElem_mem hvlen)
        exact hinv2 v hvn hmark e he
      | some v =>
        rw [hsel] at hrun
        have hv := selectMin_eq_some hsel
        refine ih { s2 with cur := v } st hlen2 hn2 hv.1 hv.2 ?_ hinv2 hrun
        show countFalse s2.intree ≤ fuel
        have hcount2 : countFalse s2.intree = countFalse s.intree - 1 := by
          rw [hi2]; exact countFalse_set_true hc hf
        have := countFalse_pos hc hf
        omega

/-- Propositional form of the abort condition of `dijkstras`: an
in-range run on a well-formed graph faults exactly when some
adjacency chain holds an edge of non-positive weight. -/
theorem dijkstras_error_iff_aux (g : WeightedGraph) (start : Nat)
    (_hwf : WF g) (hs : start < g.edges.length) :
    (∃ msg, g.dijkstras start = .error msg) ↔
      ∃ v, v < g.edges.length ∧ ∃ e ∈ g.edges.getD v [], e.1 ≤ 0 := by
  have hmap : ∀ msg, g.dijkstras start = .error msg ↔ g.dijkstrasFull start = .error msg := by
    intro msg
    unfold WeightedGraph.dijkstras
    cases g.dijkstrasFull start <;> simp [Except.map]
  constructor
  · rintro ⟨msg, hmsg⟩
    rw [hmap] at hmsg
    unfold WeightedGraph.dijkstrasFull at hmsg
    rw [if_pos hs] at hmsg
    refine dijkstrasLoop_error_bad g _ _ msg ?_ ?_ hmsg
    · simp
    · simpa using hs
  · rintro ⟨v, hvn, e, he, hbad⟩
    cases hfull : g.dijkstrasFull start with
    | error msg => exact ⟨msg, (hmap msg).mpr hfull⟩
    | ok st =>
      exfalso
      unfold WeightedGraph.dijkstrasFull at hfull
      rw [if_pos hs] at hfull
      have hpos := dijkstrasLoop_ok_chains_pos g _ _ st
        (by simp)
        (by simp)
        (by simpa using hs)
        (by
          rw [List.getD_eq_getElem?_getD, List.getElem?_eq_getElem (by simpa using hs)]
          simp)
        (by
          show countFalse (List.replicate g.edges.length false) ≤ g.edges.length + 1
          unfold countFalse
          exact Nat.le_trans (List.countP_le_length _)
            (by rw [List.length_replicate]; omega))
        (by
          intro v hvn hmark
          exfalso
          rw [List.getD_eq_getElem?_getD,
            List.getElem?_eq_getElem (by simpa using hvn)] at hmark
          simp at hmark)
        hfull
      exact absurd (hpos v hvn e he) (by omega)

/-- C9.  For a well-formed graph and in-range start vertex,
`dijkstras` aborts with a fault exactly when some adjacency chain
contains an edge of weight ≤ 0.  (A fault-free loop finalizes every
vertex, so a non-positive edge anywhere is always eventually
encountered during the relaxation of the vertex being finalized;
conversely the positivity assertion is the only fault an in-range run
can raise.) -/
theorem dijkstras_error_iff_nonpositive_edge (g : WeightedGraph) (start : Nat)
    (hwf : WF g) (hs : start < g.edges.length) :
    isErrB (g.dijkstras start) =
      (g.edges.any fun ch => ch.any fun e => decide (e.1 ≤ 0)) := by
  have hiff := dijkstras_error_iff_aux g start hwf hs
  cases hany : (g.edges.any fun ch => ch.any fun e => decide (e.1 ≤ 0)) with
  | true =>
    have hex : ∃ v, v < g.edges.length ∧ ∃ e ∈ g.edges.getD v [], e.1 ≤ 0 := by
      rcases List.any_eq_true.mp hany with ⟨ch, hch, hche⟩
      rcases List.any_eq_true.mp hche with ⟨e, he, hbad⟩
      rcases List.mem_iff_getElem.mp hch with ⟨v, hv, hveq⟩
      refine ⟨v, hv, e, ?_, by simpa using hbad⟩
      rw [List.getD_eq_getElem _ _ hv, hveq]
      exact he
    rcases hiff.mpr hex with ⟨msg, hmsg⟩
    rw [hmsg]
    rfl
  | false =>
    cases herr : g.dijkstras start with
    | error msg =>
      exfalso
      rcases hiff.mp ⟨msg, herr⟩ with ⟨v, hv, e, he, hbad⟩
      have hch : (g.edges.getD v []).any (fun e => decide (e.1 ≤ 0)) = true :=
        List.any_eq_true.mpr ⟨e, he, by simpa using hbad⟩
      have hall : (g.edges.any fun ch => ch.any fun e => decide (e.1 ≤ 0)) = true :=
        List.any_eq_true.mpr ⟨g.edges.getD v [], getD_mem hv, hch⟩
      rw [hany] at hall
      cases hall
    | ok sp => rfl

/-- C9, witness: on the 2-vertex graph with the single edge `0-1` of
weight `-1`, the fault indicator matches the presence of the
non-positive edge, and the run indeed faults. -/
theorem dijkstras_error_iff_nonpositive_edge_witness :
    isErrB ((WeightedGraph.mk [[(-1, 1)], [(-1, 0)]] [1, 0] 1 1 false).dijkstras 0) =
      ((WeightedGraph.mk [[(-1, 1)], [(-1, 0)]] [1, 0] 1 1 false).edges.any fun ch =>
        ch.any fun e => decide (e.1 ≤ 0)) ∧
    isErrB ((WeightedGraph.mk [[(-1, 1)], [(-1, 0)]] [1, 0] 1 1 false).dijkstras 0) =
      true :=
  ⟨dijkstras_error_iff_nonpositive_edge
      (WeightedGraph.mk [[(-1, 1)], [(-1, 0)]] [1, 0] 1 1 false) 0
      (by intro chain hchain e hche; fin_cases hchain <;> fin_cases hche <;> decide)
      (by decide),
    rfl⟩

/-- C10.  Calling `prims` or `dijkstras` with an out-of-capacity start
vertex, or `path_to` with an out-of-capacity end vertex on a
`ShortestPaths` produced by `dijkstras`, faults on the out-of-bounds
vector index instead of returning a result object or a none value. -/
theorem out_of_range_access_faults (g : WeightedGraph)
    (start endv s0 : Nat) (sp : ShortestPaths)
    (hstart : g.edges.length ≤ start) (hend : g.edges.length ≤ endv) :
    g.prims start = .error "index out of bounds" ∧
    g.dijkstras start = .error "index out of bounds" ∧
    (g.dijkstras s0 = .ok sp → sp.path_to endv = .error "index out of bounds") := by
  refine ⟨?_, ?_, ?_⟩
  · unfold WeightedGraph.prims WeightedGraph.primsFull
    rw [if_neg (Nat.not_lt.mpr hstart)]
    rfl
  · unfold WeightedGraph.dijkstras WeightedGraph.dijkstrasFull
    rw [if_neg (Nat.not_lt.mpr hstart)]
    rfl
  · intro hok
    unfold WeightedGraph.dijkstras at hok
    cases hfull : g.dijkstrasFull s0 with
    | error msg => rw [hfull] at hok; cases hok
    | ok st =>
      rw [hfull] at hok
      simp only [Except.map, Except.ok.injEq] at hok
      have hplen : st.parent.length = g.edges.length := by
        unfold WeightedGraph.dijkstrasFull at hfull
        split at hfull
        · have := (dijkstrasLoop_ok_lengths g _ _ _ hfull).1
          simpa using this
        · cases hfull
      have hsp : sp.parents.length = g.edges.length := by
        rw [← hok]; exact hplen
      unfold ShortestPaths.path_to
      rw [hsp, if_neg (Nat.not_lt.mpr hend)]

/-- C10, witness: the 2-vertex edgeless graph, out-of-range indices 2
and 3, and the `ShortestPaths` actually produced by `dijkstras(0)`. -/
theorem out_of_range_access_faults_witness :
    (WeightedGraph.new 2 false).prims 2 = .error "index out of bounds" ∧
    (WeightedGraph.new 2 false).dijkstras 2 = .error "index out of bounds" ∧
    (ShortestPaths.mk 0 [none, none] [0, 2147483647]).path_to 3 =
      .error "index out of bounds" :=
  ⟨(out_of_range_access_faults (WeightedGraph.new 2 false) 2 3 0
      (ShortestPaths.mk 0 [none, none] [0, 2147483647]) (by decide) (by decide)).1,
   (out_of_range_access_faults (WeightedGraph.new 2 false) 2 3 0
      (ShortestPaths.mk 0 [none, none] [0, 2147483647]) (by decide) (by decide)).2.1,
   (out_of_range_access_faults (WeightedGraph.new 2 false) 2 3 0
      (ShortestPaths.mk 0 [none, none] [0, 2147483647]) (by decide) (by decide)).2.2
      rfl⟩

/-! ## Heap contents and lengths, and union-find in-range behaviour
(for Kruskal's sizing claim) -/

theorem bubbleGo_length {α : Type} [Inhabited α] (ho : HOrd α) :
    ∀ (fuel : Nat) (l : List α) (cur : Nat),
      (bubbleGo ho l cur fuel).length = l.length := by
  intro fuel
  induction fuel with
  | zero => intro l cur; rfl
  | succ fuel ih =>
    intro l cur
    unfold bubbleGo
    split
    · rfl
    · split
      · rw [ih]; simp
      · rw [ih]

theorem bubbleGo_subset {α : Type} [Inhabited α] (ho : HOrd α) :
    ∀ (fuel : Nat) (l : List α) (cur : Nat), cur < l.length →
      ∀ x ∈ bubbleGo ho l cur fuel, x ∈ l := by
  intro fuel
  induction fuel with
  | zero => intro l cur _ x hx; exact hx
  | succ fuel ih =>
    intro l cur hcur x hx
    unfold bubbleGo at hx
    split at hx
    · exact hx
    · rename_i hc0
      have hp : (cur - 1) / 2 < l.length :=
        Nat.lt_of_le_of_lt (Nat.le_trans (Nat.div_le_self _ 2) (Nat.pred_le _)) hcur
      split at hx
      · have hplen : (cur - 1) / 2 <
            ((l.set ((cur - 1) / 2) (l.getD cur default)).set cur
              (l.getD ((cur - 1) / 2) default)).length := by
          simpa using hp
        have hx' := ih _ _ hplen x hx
        rcases List.mem_or_eq_of_mem_set hx' with hx'' | rfl
        · rcases List.mem_or_eq_of_mem_set hx'' with hmem | rfl
          · exact hmem
          · exact getD_mem hcur
        · exact getD_mem hp
      · exact ih l _ hp x hx

theorem hpInsert_length {α : Type} [Inhabited α] (ho : HOrd α) (l : List α) (v : α) :
    (hpInsert ho l v).length = l.length + 1 := by
  unfold hpInsert
  rw [bubbleGo_length]
  simp

theorem hpInsert_subset {α : Type} [Inhabited α] (ho : HOrd α) (l : List α) (v : α) :
    ∀ x ∈ hpInsert ho l v, x ∈ l ∨ x = v := by
  intro x hx
  have hs := bubbleGo_subset ho (l ++ [v]).length (l ++ [v]) ((l ++ [v]).length - 1)
    (by simp) x hx
  rcases List.mem_append.mp hs with h | h
  · exact Or.inl h
  · exact Or.inr (by simpa using h)

theorem hpInsertAll_subset {α : Type} [Inhabited α] (ho : HOrd α) :
    ∀ (vs acc : List α), ∀ x ∈ hpInsertAll ho acc vs, x ∈ acc ∨ x ∈ vs := by
  intro vs
  induction vs with
  | nil => intro acc x hx; exact Or.inl hx
  | cons v rest ih =>
    intro acc x hx
    rcases ih (hpInsert ho acc v) x hx with h | h
    · rcases hpInsert_subset ho acc v x h with h' | rfl
      · exact Or.inl h'
      · exact Or.inr (List.mem_cons_self ..)
    · exact Or.inr (List.mem_cons_of_mem _ h)

theorem hpInsertAll_length {α : Type} [Inhabited α] (ho : HOrd α) :
    ∀ (vs acc : List α), (hpInsertAll ho acc vs).length = acc.length + vs.length := by
  intro vs
  induction vs with
  | nil => intro acc; rfl
  | cons v rest ih =>
    intro acc
    have : hpInsertAll ho acc (v :: rest) = hpInsertAll ho (hpInsert ho acc v) rest := rfl
    rw [this, ih, hpInsert_length, List.length_cons]
    omega

theorem heapifyGo_length {α : Type} [Inhabited α] (ho : HOrd α) :
    ∀ (fuel : Nat) (l : List α) (cur : Nat),
      (heapifyGo ho l cur fuel).1.length = l.length := by
  intro fuel
  induction fuel with
  | zero => intro l cur; rfl
  | succ fuel ih =>
    intro l cur
    unfold heapifyGo
    split
    · rfl
    · split
      · simp
      · split <;> rw [ih] <;> simp

theorem heapifyGo_subset {α : Type} [Inhabited α] (ho : HOrd α) :
    ∀ (fuel : Nat) (l : List α) (cur : Nat),
      ∀ x ∈ (heapifyGo ho l cur fuel).1, x ∈ l := by
  intro fuel
  induction fuel with
  | zero => intro l cur x hx; exact hx
  | succ fuel ih =>
    intro l cur x hx
    unfold heapifyGo at hx
    split at hx
    · exact hx
    · rename_i hci
      have hcilt : cur * 2 + 1 < l.length := Nat.lt_of_not_le hci
      split at hx
      · rcases List.mem_or_eq_of_mem_set hx with h | rfl
        · exact h
        · exact getD_mem hcilt
      · rename_i hne
        split at hx
        · rcases List.mem_or_eq_of_mem_set (ih _ _ x hx) with h | rfl
          · exact h
          · exact getD_mem hcilt
        · have hci1 : cur * 2 + 1 + 1 < l.length := by omega
          rcases List.mem_or_eq_of_mem_set (ih _ _ x hx) with h | rfl
          · exact h
          · exact getD_mem hci1

theorem heapify_length {α : Type} [Inhabited α] (ho : HOrd α) (l : List α) :
    (heapify ho l).length = l.length - 1 := by
  unfold heapify
  cases hgo : heapifyGo ho l 0 l.length with
  | mk l' cur =>
    have : l'.length = l.length := by
      have := heapifyGo_length ho l.length l 0
      rw [hgo] at this
      exact this
    simp [List.length_dropLast, this]

theorem heapify_subset {α : Type} [Inhabited α] (ho : HOrd α) (l : List α)
    (hne : l.length ≠ 0) : ∀ x ∈ heapify ho l, x ∈ l := by
  intro x hx
  unfold heapify at hx
  rcases hgo : heapifyGo ho l 0 l.length with ⟨l', cur⟩
  rw [hgo] at hx
  have hlen : l'.length = l.length := by
    have := heapifyGo_length ho l.length l 0
    rw [hgo] at this
    exact this
  have hsub : ∀ y ∈ l', y ∈ l := by
    intro y hy
    have := heapifyGo_subset ho l.length l 0 y
    rw [hgo] at this
    exact this hy
  have hx' := List.dropLast_subset _ hx
  rcases List.mem_or_eq_of_mem_set hx' with h | rfl
  · exact hsub _ h
  · exact hsub _ (getD_mem (by omega))

theorem hpPop_empty {α : Type} [Inhabited α] (ho : HOrd α) {l : List α}
    (h : l.length = 0) : hpPop ho l = (none, l) := by
  unfold hpPop
  rw [if_pos h]

theorem hpPop_nonempty {α : Type} [Inhabited α] (ho : HOrd α) {l : List α}
    (h : l.length ≠ 0) :
    hpPop ho l = (some (l.getD 0 default), heapify ho l) := by
  unfold hpPop
  rw [if_neg h]

/-! ## Union-find stays in range on in-range inputs -/

/-- All parent entries of a union-find point inside the structure. -/
def PBound (p : List Nat) : Prop := ∀ z, z < p.length → p.getD z 0 < p.length

theorem pbound_new (n : Nat) : PBound (UnionFind.new n).parent := by
  intro z hz
  have hz' : z < n := by simpa [UnionFind.new] using hz
  simp only [UnionFind.new]
  rw [List.getD_eq_getElem _ _ (by simpa using hz')]
  simpa using hz'

theorem findGo_lt {p : List Nat} (hb : PBound p) :
    ∀ (fuel x : Nat), x < p.length → findGo p x fuel < p.length := by
  intro fuel
  induction fuel with
  | zero => intro x hx; exact hx
  | succ fuel ih =>
    intro x hx
    unfold findGo
    split
    · exact hx
    · exact ih _ (hb x hx)

theorem union_ok {uf : UnionFind} {x y : Nat} (hx : x < uf.parent.length)
    (hy : y < uf.parent.length) (hb : PBound uf.parent) :
    ∃ uf', uf.union x y = .ok uf' ∧ uf'.parent.length = uf.parent.length ∧
      PBound uf'.parent := by
  unfold UnionFind.union
  rw [if_pos ⟨hx, hy⟩]
  by_cases hxy : x = y
  · rw [if_pos hxy]
    exact ⟨uf, rfl, rfl, hb⟩
  · rw [if_neg hxy]
    have hxr := findGo_lt hb uf.parent.length x hx
    have hyr := findGo_lt hb uf.parent.length y hy
    have hset : ∀ (a b : Nat), a < uf.parent.length → b < uf.parent.length →
        PBound (uf.parent.set a b) := by
      intro a b ha hbb z hz
      rw [List.length_set] at hz ⊢
      rcases eq_or_ne a z with rfl | hne
      · rw [getD_set_self ha]
        exact hbb
      · rw [getD_set_ne hne]
        exact hb z hz
    split
    · exact ⟨_, rfl, by simp, hset _ _ hxr hyr⟩
    · exact ⟨_, rfl, by simp, hset _ _ hyr hxr⟩

theorem find_ok {uf : UnionFind} {x : Nat} (hx : x < uf.parent.length) :
    uf.find x = .ok (findGo uf.parent x uf.parent.length) := by
  unfold UnionFind.find
  rw [if_pos hx]

theorem unionFind_new_parent_length (n : Nat) :
    (UnionFind.new n).parent.length = n := by
  simp [UnionFind.new]

theorem kruskalsLoop_ok :
    ∀ (fuel : Nat) (q : List EdgePair) (uf : UnionFind)
      (parent : List (Option Nat)) (weight : Int),
      q.length < fuel →
      PBound uf.parent →
      (∀ e ∈ q, e.source < uf.parent.length ∧ e.points_to < uf.parent.length) →
      ∃ r, kruskalsLoop q uf parent weight fuel = .ok r := by
  intro fuel
  induction fuel with
  | zero => intro q uf parent weight hfuel; omega
  | succ fuel ih =>
    intro q uf parent weight hfuel hb hq
    unfold kruskalsLoop
    by_cases hq0 : q.length = 0
    · rw [hpPop_empty edgePairOrd hq0]
      exact ⟨_, rfl⟩
    · rw [hpPop_nonempty edgePairOrd hq0]
      have hmem : q.getD 0 default ∈ q := getD_mem (Nat.pos_of_ne_zero hq0)
      obtain ⟨hsrc, htgt⟩ := hq _ hmem
      show ∃ r,
        ((uf.find (q.getD 0 default).source).bind fun rs =>
          (uf.find (q.getD 0 default).points_to).bind fun rt =>
          if rs = rt then kruskalsLoop (heapify edgePairOrd q) uf parent weight fuel
          else
            (uf.union (q.getD 0 default).source (q.getD 0 default).points_to).bind
              fun uf' =>
            kruskalsLoop (heapify edgePairOrd q) uf'
              (parent.set (q.getD 0 default).points_to
                (some (q.getD 0 default).source))
              (wrap32 (weight + (q.getD 0 default).weight)) fuel) = Except.ok r
      rw [find_ok hsrc, find_ok htgt]
      simp only [Except.bind]
      have hqlen : (heapify edgePairOrd q).length < fuel := by
        rw [heapify_length]
        omega
      have hq' : ∀ e ∈ heapify edgePairOrd q,
          e.source < uf.parent.length ∧ e.points_to < uf.parent.length :=
        fun e he => hq e (heapify_subset edgePairOrd q hq0 e he)
      split
      · exact ih _ uf parent weight hqlen hb hq'
      · obtain ⟨uf', hu, hulen, hub⟩ := union_ok hsrc htgt hb
        rw [hu]
        simp only [Except.bind]
        refine ih _ uf' _ _ ?_ hub ?_
        · exact hqlen
        · intro e he
          rw [hulen]
          exact hq' e he

/-- C6, amended.  Kruskal's disjoint-set is created with one element
per heap entry (per enumerated edge record).  That is *not* always
enough for the vertex indices the edges carry (see the 5-vertex
counterexample); but whenever every source and target index of the
enumerated records is below the record count — as in the repository's
own test graphs — every `find`/`union` call is in range and
`kruskals` completes without a fault. -/
theorem kruskals_ok_of_in_bounds (g : WeightedGraph)
    (hb : ∀ e ∈ kruskalRecords g,
      e.source < (kruskalRecords g).length ∧
      e.points_to < (kruskalRecords g).length) :
    isOkB g.kruskals = true := by
  unfold WeightedGraph.kruskals
  have hql : (hpInsertAll edgePairOrd [] (kruskalRecords g)).length =
      (kruskalRecords g).length := by
    rw [hpInsertAll_length]
    simp
  have hplen : (UnionFind.new
      (hpInsertAll edgePairOrd [] (kruskalRecords g)).length).parent.length =
      (kruskalRecords g).length := by
    rw [unionFind_new_parent_length, hql]
  obtain ⟨r, hr⟩ := kruskalsLoop_ok
    ((hpInsertAll edgePairOrd [] (kruskalRecords g)).length + 1)
    (hpInsertAll edgePairOrd [] (kruskalRecords g))
    (UnionFind.new (hpInsertAll edgePairOrd [] (kruskalRecords g)).length)
    (List.replicate g.edges.length none) 0
    (by omega)
    (pbound_new _)
    (by
      intro e he
      rw [hplen]
      have := hpInsertAll_subset edgePairOrd (kruskalRecords g) [] e he
      rcases this with h | h
      · cases h
      · exact hb e h)
  rw [hr]
  rfl

/-- C6, witness: the 2-vertex graph with the single undirected edge
`0-1`; both records' endpoints are below the record count 2, and
`kruskals` completes. -/
theorem kruskals_ok_of_in_bounds_witness :
    isOkB (WeightedGraph.mk [[(1, 1)], [(1, 0)]] [1, 0] 1 1 false).kruskals = true :=
  kruskals_ok_of_in_bounds (WeightedGraph.mk [[(1, 1)], [(1, 0)]] [1, 0] 1 1 false)
    (by decide)

/-! ## Union-find forests: root paths and the size invariant -/

/-- The root `find` computes when it terminates: `findGo` with the
structure's own length as fuel. -/
def rootD (p : List Nat) (x : Nat) : Nat := findGo p x p.length

/-- `RootPath p x r k`: starting at `x` and following parent links,
the walk meets the root `r` after exactly `k` proper steps (no node
before `r` is a fixpoint). -/
inductive RootPath (p : List Nat) : Nat → Nat → Nat → Prop
  | root (x : Nat) : p.getD x 0 = x → RootPath p x x 0
  | step (x r k : Nat) : p.getD x 0 ≠ x → RootPath p (p.getD x 0) r k →
      RootPath p x r (k + 1)

theorem findGo_of_fix {p : List Nat} {x : Nat} (h : p.getD x 0 = x) :
    ∀ fuel, findGo p x fuel = x := by
  intro fuel
  cases fuel with
  | zero => rfl
  | succ fuel => unfold findGo; rw [if_pos h.symm]

theorem RootPath.findGo_eq {p : List Nat} {x r k : Nat}
    (h : RootPath p x r k) : ∀ fuel, k ≤ fuel → findGo p x fuel = r := by
  induction h with
  | root x hx => intro fuel _; exact findGo_of_fix hx fuel
  | step x r k hx _ ih =>
    intro fuel hf
    cases fuel with
    | zero => omega
    | succ fuel =>
      unfold findGo
      rw [if_neg (fun he => hx he.symm)]
      exact ih fuel (by omega)

theorem RootPath.root_fix {p : List Nat} {x r k : Nat}
    (h : RootPath p x r k) : p.getD r 0 = r := by
  induction h with
  | root x hx => exact hx
  | step x r k _ _ ih => exact ih

theorem RootPath.lt {p : List Nat} (hb : PBound p) :
    ∀ {x r k : Nat}, RootPath p x r k → x < p.length → r < p.length := by
  intro x r k h
  induction h with
  | root x _ => exact fun hx => hx
  | step x r k _ _ ih => exact fun hx => ih (hb x hx)

/-- Replacing the parent slot of a root `a` does not disturb a root
path that ends at a *different* root: no non-final node of the path is
a root, and the final node is not `a`. -/
theorem RootPath.of_set_ne {p : List Nat} {a b : Nat} (ha : p.getD a 0 = a) :
    ∀ {x r k : Nat}, RootPath p x r k → r ≠ a → RootPath (p.set a b) x r k := by
  intro x r k h
  induction h with
  | root x hx =>
    intro hra
    exact RootPath.root x (by rw [getD_set_ne (fun he => hra he.symm)]; exact hx)
  | step x r k hx hrest ih =>
    intro hra
    have hxa : x ≠ a := fun he => hx (he ▸ ha)
    refine RootPath.step x r k ?_ ?_
    · rw [getD_set_ne (fun he => hxa he.symm)]
      exact hx
    · rw [getD_set_ne (fun he => hxa he.symm)]
      exact ih hra

/-- Attaching the root `a` under another root `b` extends every path
that ended at `a` by one step to `b`. -/
theorem RootPath.of_set_extend {p : List Nat} {a b : Nat}
    (han : a < p.length) (hb : p.getD b 0 = b) (hab : b ≠ a) :
    ∀ {x k : Nat}, RootPath p x a k → RootPath (p.set a b) x b (k + 1) := by
  suffices hgen : ∀ {x r k : Nat}, RootPath p x r k → r = a →
      RootPath (p.set a b) x b (k + 1) by
    intro x k h
    exact hgen h rfl
  intro x r k h
  induction h with
  | root z hz =>
    intro hza
    subst hza
    refine RootPath.step _ b 0 ?_ ?_
    · rw [getD_set_self han]
      exact hab
    · rw [getD_set_self han]
      exact RootPath.root b (by rw [getD_set_ne (fun he => hab he.symm)]; exact hb)
  | step z rr kk hz hrest ih =>
    intro hra
    have hza : z ≠ a := fun he => by
      subst hra
      exact hz (he ▸ hrest.root_fix)
    refine RootPath.step _ b (kk + 1) ?_ ?_
    · rw [getD_set_ne (fun he => hza he.symm)]
      exact hz
    · rw [getD_set_ne (fun he => hza he.symm)]
      exact ih hra

/-- The parent walk is deterministic: root and step count are
unique. -/
theorem RootPath.unique {p : List Nat} :
    ∀ {x r k r' k' : Nat}, RootPath p x r k → RootPath p x r' k' →
      r = r' ∧ k = k' := by
  intro x r k r' k' h
  induction h generalizing r' k' with
  | root z hz =>
    intro h'
    cases h' with
    | root _ _ => exact ⟨rfl, rfl⟩
    | step _ _ _ hne _ => exact absurd hz hne
  | step z rr kk hne hrest ih =>
    intro h'
    cases h' with
    | root _ hz => exact absurd hz hne
    | step _ _ _ _ hrest2 =>
      obtain ⟨h1, h2⟩ := ih hrest2
      exact ⟨h1, by omega⟩

/-- The structural invariant of every union-find state Kruskal-style
usage can reach: lengths agree, parents stay in range, every element
has a root path whose length is bounded by its root's size slot, and
each root's size slot counts the elements of its set. -/
structure UFInv (n : Nat) (uf : UnionFind) : Prop where
  plen : uf.parent.length = n
  slen : uf.size.length = n
  pbound : PBound uf.parent
  depth : ∀ x, x < n → ∃ r k, RootPath uf.parent x r k ∧ k + 1 ≤ uf.size.getD r 0
  count : ∀ r, r < n → uf.parent.getD r 0 = r →
    uf.size.getD r 0 =
      (List.range n).countP fun e => decide (rootD uf.parent e = r)

theorem UFInv.size_le {n : Nat} {uf : UnionFind} (inv : UFInv n uf)
    {r : Nat} (hr : r < n) (hroot : uf.parent.getD r 0 = r) :
    uf.size.getD r 0 ≤ n := by
  rw [inv.count r hr hroot]
  exact Nat.le_trans (List.countP_le_length _) (Nat.le_of_eq (List.length_range n))

theorem UFInv.rootD_eq {n : Nat} {uf : UnionFind} (inv : UFInv n uf)
    {x r k : Nat} (hx : x < n) (h : RootPath uf.parent x r k) :
    rootD uf.parent x = r ∧ r < n ∧ uf.parent.getD r 0 = r ∧ k < n := by
  have hrn : r < uf.parent.length := h.lt inv.pbound (inv.plen ▸ hx)
  obtain ⟨r', k', hpath', hbound'⟩ := inv.depth x hx
  obtain ⟨rfl, rfl⟩ := h.unique hpath'
  have hkn : k < n := by
    have hsle := inv.size_le (inv.plen ▸ hrn) h.root_fix
    omega
  refine ⟨?_, inv.plen ▸ hrn, h.root_fix, hkn⟩
  exact h.findGo_eq uf.parent.length (by have := inv.plen; omega)

theorem countP_or_disjoint {α : Type} :
    ∀ (l : List α) (P Q : α → Bool), (∀ e ∈ l, ¬(P e = true ∧ Q e = true)) →
      l.countP (fun e => P e || Q e) = l.countP P + l.countP Q := by
  intro l
  induction l with
  | nil => intro P Q _; rfl
  | cons a l ih =>
    intro P Q hdis
    rw [List.countP_cons, List.countP_cons, List.countP_cons,
      ih P Q (fun e he => hdis e (List.mem_cons_of_mem a he))]
    have := hdis a (List.mem_cons_self ..)
    cases hP : P a <;> cases hQ : Q a <;> simp_all <;> omega

theorem countP_range_eq_one {n r : Nat} (h : r < n) :
    (List.range n).countP (fun e => decide (e = r)) = 1 := by
  induction n with
  | zero => omega
  | succ n ih =>
    rw [List.range_succ, List.countP_append]
    rcases Nat.lt_or_ge r n with hlt | hge
    · rw [ih hlt]
      have : (n = r) = False := by simp; omega
      simp [List.countP_cons, this]
    · have hrn : r = n := by omega
      subst hrn
      rw [List.countP_eq_zero.mpr (by intro a ha; simp at ha ⊢; omega)]
      simp [List.countP_cons]

theorem range_getD {n x : Nat} (h : x < n) : (List.range n).getD x 0 = x := by
  rw [List.getD_eq_getElem _ _ (by simpa using h)]
  simp

theorem replicate_getD {α : Type} {n x : Nat} {c d : α} (h : x < n) :
    (List.replicate n c).getD x d = c := by
  rw [List.getD_eq_getElem _ _ (by simpa using h)]
  simp

theorem UFInv.size_pos {n : Nat} {uf : UnionFind} (inv : UFInv n uf)
    {r : Nat} (hr : r < n) (hroot : uf.parent.getD r 0 = r) :
    1 ≤ uf.size.getD r 0 := by
  rw [inv.count r hr hroot]
  refine List.countP_pos_iff.mpr ⟨r, List.mem_range.mpr hr, ?_⟩
  simp only [decide_eq_true_eq]
  exact findGo_of_fix hroot uf.parent.length

/-- The linking step shared by both branches of `union`: attach root
`a` under root `b` and add `a`'s size into `b`'s slot.  All invariant
components survive. -/
theorem UFInv.link {n : Nat} {uf : UnionFind} (inv : UFInv n uf)
    {a b : Nat} (han : a < n) (hbn : b < n)
    (haroot : uf.parent.getD a 0 = a) (hbroot : uf.parent.getD b 0 = b)
    (hab : a ≠ b) (m : Nat) :
    UFInv n ⟨uf.parent.set a b,
             uf.size.set b (uf.size.getD b 0 + uf.size.getD a 0), m⟩ := by
  have hplen : a < uf.parent.length := inv.plen.symm ▸ han
  have hslenb : b < uf.size.length := inv.slen.symm ▸ hbn
  have hba : b ≠ a := fun he => hab he.symm
  have hpoint : ∀ e, e < n →
      rootD (uf.parent.set a b) e =
        if rootD uf.parent e = a then b else rootD uf.parent e := by
    intro e he
    obtain ⟨r, k, hpath, _⟩ := inv.depth e he
    obtain ⟨hre, hrn, hroot, hkn⟩ := inv.rootD_eq he hpath
    rcases eq_or_ne r a with rfl | hrna
    · rw [if_pos hre]
      have hext := hpath.of_set_extend hplen hbroot hba
      exact hext.findGo_eq _ (by rw [List.length_set]; have := inv.plen; omega)
    · rw [if_neg (by rw [hre]; exact hrna)]
      rw [hre]
      have hkeep : RootPath (uf.parent.set a b) e r k := hpath.of_set_ne haroot hrna
      exact hkeep.findGo_eq _ (by rw [List.length_set]; have := inv.plen; omega)
  have hroots : ∀ z, z < n →
      ((uf.parent.set a b).getD z 0 = z ↔ z ≠ a ∧ uf.parent.getD z 0 = z) := by
    intro z hz
    rcases eq_or_ne z a with rfl | hza
    · rw [getD_set_self hplen]
      simp [hba]
    · rw [getD_set_ne (fun he => hza he.symm)]
      simp [hza]
  refine ⟨?_, ?_, ?_, ?_, ?_⟩
  · rw [List.length_set]; exact inv.plen
  · rw [List.length_set]; exact inv.slen
  · intro z hz
    rw [List.length_set] at hz ⊢
    rcases eq_or_ne z a with rfl | hza
    · rw [getD_set_self hplen]
      exact inv.plen.symm ▸ hbn
    · rw [getD_set_ne (fun he => hza he.symm)]
      exact inv.pbound z hz
  · intro z hz
    obtain ⟨r, k, hpath, hbound⟩ := inv.depth z hz
    obtain ⟨hre, hrn, hroot, hkn⟩ := inv.rootD_eq hz hpath
    rcases eq_or_ne r a with rfl | hrna
    · refine ⟨b, k + 1, hpath.of_set_extend hplen hbroot hba, ?_⟩
      show k + 1 + 1 ≤ (uf.size.set b _).getD b 0
      rw [getD_set_self hslenb]
      have hb1 := inv.size_pos hbn hbroot
      omega
    · refine ⟨r, k, hpath.of_set_ne haroot hrna, ?_⟩
      rcases eq_or_ne r b with rfl | hrnb
      · show k + 1 ≤ (uf.size.set r _).getD r 0
        rw [getD_set_self hslenb]
        omega
      · show k + 1 ≤ (uf.size.set b _).getD r 0
        rw [getD_set_ne (fun he => hrnb he.symm)]
        exact hbound
  · intro r hr hroot'
    have hcond := (hroots r hr).mp hroot'
    obtain ⟨hrna, hroot⟩ := hcond
    rcases eq_or_ne r b with rfl | hrnb
    · show (uf.size.set r (uf.size.getD r 0 + uf.size.getD a 0)).getD r 0 =
        (List.range n).countP fun e => decide (rootD (uf.parent.set a r) e = r)
      rw [getD_set_self hslenb]
      have hcongr : ((List.range n).countP fun e =>
          decide (rootD (uf.parent.set a r) e = r)) =
          (List.range n).countP fun e =>
            (decide (rootD uf.parent e = r) || decide (rootD uf.parent e = a)) := by
        apply List.countP_congr
        intro e he
        have hen : e < n := List.mem_range.mp he
        rw [hpoint e hen]
        rcases eq_or_ne (rootD uf.parent e) a with hea | hea
        · simp [hea]
        · simp [hea]
      have hdis := countP_or_disjoint (List.range n)
        (fun e => decide (rootD uf.parent e = r))
        (fun e => decide (rootD uf.parent e = a))
        (by
          intro e _ hcon
          obtain ⟨h1, h2⟩ := hcon
          simp only [decide_eq_true_eq] at h1 h2
          exact hrna (h1 ▸ h2 ▸ rfl))
      rw [hcongr, hdis, ← inv.count r hr hroot, ← inv.count a han haroot]
    · show (uf.size.set b (uf.size.getD b 0 + uf.size.getD a 0)).getD r 0 =
        (List.range n).countP fun e => decide (rootD (uf.parent.set a b) e = r)
      rw [getD_set_ne (fun he => hrnb he.symm) _ _, inv.count r hr hroot]
      apply List.countP_congr
      intro e he
      have hen : e < n := List.mem_range.mp he
      rw [hpoint e hen]
      rcases eq_or_ne (rootD uf.parent e) a with hea | hea
      · rw [if_pos hea, hea]
        simp only [decide_eq_true_eq]
        constructor
        · intro h
          exact absurd h.symm hrna
        · intro h
          exact absurd h.symm hrnb
      · rw [if_neg hea]

theorem UFInv_new (n : Nat) : UFInv n (UnionFind.new n) := by
  refine ⟨?_, ?_, pbound_new n, ?_, ?_⟩
  · simp [UnionFind.new]
  · simp [UnionFind.new]
  · intro x hx
    have hfix : (UnionFind.new n).parent.getD x 0 = x := range_getD hx
    refine ⟨x, 0, RootPath.root x hfix, ?_⟩
    show 0 + 1 ≤ (List.replicate n 1).getD x 0
    rw [replicate_getD hx]
  · intro r hr hroot
    show (List.replicate n 1).getD r 0 = _
    rw [replicate_getD hr]
    have hcongr : ((List.range n).countP fun e =>
        decide (rootD (UnionFind.new n).parent e = r)) =
        (List.range n).countP fun e => decide (e = r) := by
      apply List.countP_congr
      intro e he
      have hen : e < n := List.mem_range.mp he
      have : rootD (UnionFind.new n).parent e = e :=
        findGo_of_fix (range_getD hen) _
      rw [this]
    rw [hcongr, countP_range_eq_one hr]

/-- `union` on in-range arguments that are equal or lie in distinct
sets preserves the structural invariant. -/
theorem UFInv.union_preserved {n : Nat} {uf uf' : UnionFind} (inv : UFInv n uf)
    {x y : Nat} (hx : x < n) (hy : y < n)
    (hgood : x = y ∨ rootD uf.parent x ≠ rootD uf.parent y)
    (hok : uf.union x y = .ok uf') : UFInv n uf' := by
  have hx' : x < uf.parent.length := inv.plen.symm ▸ hx
  have hy' : y < uf.parent.length := inv.plen.symm ▸ hy
  unfold UnionFind.union at hok
  rw [if_pos ⟨hx', hy'⟩] at hok
  by_cases hxy : x = y
  · rw [if_pos hxy] at hok
    cases hok
    exact inv
  · rw [if_neg hxy] at hok
    have hroots : rootD uf.parent x ≠ rootD uf.parent y := hgood.resolve_left hxy
    obtain ⟨rx, kx, hpx, _⟩ := inv.depth x hx
    obtain ⟨hrex, hrxn, hrootx, _⟩ := inv.rootD_eq hx hpx
    obtain ⟨ry, ky, hpy, _⟩ := inv.depth y hy
    obtain ⟨hrey, hryn, hrooty, _⟩ := inv.rootD_eq hy hpy
    have hxr : findGo uf.parent x uf.parent.length = rx := hrex
    have hyr : findGo uf.parent y uf.parent.length = ry := hrey
    rw [hxr, hyr] at hok
    have hrxy : rx ≠ ry := by
      rw [← hrex, ← hrey]
      exact hroots
    split at hok
    · cases hok
      exact inv.link hrxn hryn hrootx hrooty hrxy _
    · cases hok
      exact inv.link hryn hrxn hrooty hrootx (fun he => hrxy he.symm) _

/-- The union-find states reachable from `new n` by `union` calls with
in-range arguments that are either equal (the source's no-op) or lie
in distinct sets — exactly how Kruskal's algorithm drives the
structure. -/
inductive GoodReach (n : Nat) : UnionFind → Prop
  | base : GoodReach n (UnionFind.new n)
  | step (uf uf' : UnionFind) (x y : Nat) : GoodReach n uf → x < n → y < n →
      (x = y ∨ rootD uf.parent x ≠ rootD uf.parent y) →
      uf.union x y = .ok uf' → GoodReach n uf'

theorem GoodReach.inv {n : Nat} {uf : UnionFind} (h : GoodReach n uf) :
    UFInv n uf := by
  induction h with
  | base => exact UFInv_new n
  | step uf uf' x y _ hx hy hgood hok ih => exact ih.union_preserved hx hy hgood hok

/-- C3, amended.  For every state reachable from `new(n)` by `union`
calls whose in-range arguments are equal (the no-op case) or lie in
distinct sets — which is how Kruskal's algorithm, the only caller,
drives the structure — `size(x)` equals the number of elements `e` in
`0..n` with `find(e) == find(x)`.  (Per the counterexample, a `union`
of two distinct elements already in the same set breaks this: the
argument-equality no-op guard does not catch it and the root's size
is added to itself.) -/
theorem union_find_size_counts (n : Nat) (uf : UnionFind) (h : GoodReach n uf)
    (x : Nat) (hx : x < n) :
    uf.size_ x =
      .ok ((List.range n).countP fun e => decide (uf.find e = uf.find x)) := by
  have inv := h.inv
  obtain ⟨r, k, hpath, _⟩ := inv.depth x hx
  obtain ⟨hre, hrn, hroot, _⟩ := inv.rootD_eq hx hpath
  have hx' : x < uf.parent.length := inv.plen.symm ▸ hx
  unfold UnionFind.size_
  rw [if_pos hx']
  have hxr : findGo uf.parent x uf.parent.length = r := hre
  rw [hxr, inv.count r hrn hroot]
  congr 1
  apply List.countP_congr
  intro e he
  have hen : e < n := List.mem_range.mp he
  have he' : e < uf.parent.length := inv.plen.symm ▸ hen
  rw [find_ok he', find_ok hx', hxr]
  simp only [decide_eq_true_eq, Except.ok.injEq]
  exact Iff.rfl

/-- C3, witness: `new(2)` followed by the distinct-root `union(0, 1)`;
`size(0)` is 2, the number of elements whose representative matches
element 0's. -/
theorem union_find_size_counts_witness :
    (UnionFind.mk [0, 0] [2, 1] 1).size_ 0 =
      .ok ((List.range 2).countP fun e =>
        decide ((UnionFind.mk [0, 0] [2, 1] 1).find e =
          (UnionFind.mk [0, 0] [2, 1] 1).find 0)) :=
  union_find_size_counts 2 (UnionFind.mk [0, 0] [2, 1] 1)
    (GoodReach.step (UnionFind.new 2) (UnionFind.mk [0, 0] [2, 1] 1) 0 1
      GoodReach.base (by decide) (by decide) (Or.inr (by decide)) rfl)
    0 (by decide)

end Adm
